import Mathlib

/-!
Verification development for the native-linking backend (`src/librustc/back/link.rs`).

The Rust source is shallowly embedded as executable Lean definitions:

* strings are embedded as `String` or as `List Char` (the mangler and the
  sanitizer work on `List Char`; every string they produce is ASCII, so byte
  length and character length coincide and `~str` indexing at byte 0 is the
  head character);
* machine integers (`u32`, `u64`) are embedded as `Nat` with explicit
  `% 2 ^ 32` / shifts where the source casts;
* the `Sha256` hasher from `util::sha2` (not part of the sources under
  review, but named explicitly by the code: "CHF: we use SHA256") is embedded
  as the standard FIPS 180-4 SHA-256 over byte lists, producing the full
  lowercase-hex digest exactly as `result_str` does;
* session state (error accumulation, the type-hash cache) is embedded by
  explicit state passing.
-/

set_option maxRecDepth 10000

namespace LinkBack

/-! ## Basic character classes (ASCII; every character the sanitizer and
mangler emit is ASCII, see `sanChar_legal`). -/

/-- ASCII decimal digit test, via the code point. -/
def isDig (c : Char) : Bool := 48 ≤ c.toNat && c.toNat ≤ 57

/-- Characters gas accepts in symbols: `a-z`, `A-Z`, `0-9`, `.`, `_`, `$`
(comment above `sanitize` in the source). -/
def legalChar (c : Char) : Bool :=
  (97 ≤ c.toNat && c.toNat ≤ 122) || (65 ≤ c.toNat && c.toNat ≤ 90) ||
  (48 ≤ c.toNat && c.toNat ≤ 57) || c.toNat == 95 || c.toNat == 46 || c.toNat == 36

/-- The XID_Start test restricted to ASCII, where it coincides with the ASCII
letters.  The source only ever applies `char::is_XID_start` to the first byte
of a sanitized string, and sanitized strings are ASCII. -/
def isXIDStartA (c : Char) : Bool :=
  (97 ≤ c.toNat && c.toNat ≤ 122) || (65 ≤ c.toNat && c.toNat ≤ 90)

/-- The sixteen lowercase hexadecimal digit characters. -/
def hexDigits : List Char := "0123456789abcdef".data

/-- Lowercase hex digit of `n % 16`. -/
def hexChar (n : Nat) : Char := hexDigits.getD (n % 16) '0'

/-! ## Decimal rendering of a `Nat` (the `format!` length prefixes).
Structural recursion on a fuel argument so that the kernel evaluates it. -/

/-- Decimal digits of `n`, most significant first, with `fuel` recursion
budget (sufficient whenever `n < fuel`). -/
def decCharsF : Nat → Nat → List Char
  | 0, _ => []
  | f + 1, n =>
    if n < 10 then [Char.ofNat (48 + n)]
    else decCharsF f (n / 10) ++ [Char.ofNat (48 + n % 10)]

/-- Decimal digits of `n`, most significant first, no leading zeros
(`"0"` for zero) — the rendering `format!` uses for `uint`. -/
def decChars (n : Nat) : List Char := decCharsF (n + 1) n

/-- Numeric value of a digit list, used to invert `decChars`. -/
def valOfDigits (l : List Char) : Nat := l.foldl (fun a c => a * 10 + (c.toNat - 48)) 0

/-! ## SHA-256 (FIPS 180-4), over byte lists. -/

/-- Truncate to 32 bits. -/
def t32 (n : Nat) : Nat := n % 2 ^ 32

/-- Rotate a 32-bit word right by `k`. -/
def rotr (k x : Nat) : Nat := t32 ((x >>> k) ||| (x <<< (32 - k)))

/-- SHA-256 `Ch`. -/
def shaCh (x y z : Nat) : Nat := (x &&& y) ^^^ ((x ^^^ 4294967295) &&& z)

/-- SHA-256 `Maj`. -/
def shaMaj (x y z : Nat) : Nat := (x &&& y) ^^^ (x &&& z) ^^^ (y &&& z)

/-- SHA-256 `Σ0`. -/
def bsig0 (x : Nat) : Nat := rotr 2 x ^^^ rotr 13 x ^^^ rotr 22 x

/-- SHA-256 `Σ1`. -/
def bsig1 (x : Nat) : Nat := rotr 6 x ^^^ rotr 11 x ^^^ rotr 25 x

/-- SHA-256 `σ0`. -/
def ssig0 (x : Nat) : Nat := rotr 7 x ^^^ rotr 18 x ^^^ (x >>> 3)

/-- SHA-256 `σ1`. -/
def ssig1 (x : Nat) : Nat := rotr 17 x ^^^ rotr 19 x ^^^ (x >>> 10)

/-- The 64 SHA-256 round constants, in decimal (the hex value of each row
stands in the comment beside it). -/
def kConst : List Nat :=
  [1116352408, 1899447441, 3049323471, 3921009573,   -- 428a2f98 71374491 b5c0fbcf e9b5dba5
   961987163, 1508970993, 2453635748, 2870763221,    -- 3956c25b 59f111f1 923f82a4 ab1c5ed5
   3624381080, 310598401, 607225278, 1426881987,     -- d807aa98 12835b01 243185be 550c7dc3
   1925078388, 2162078206, 2614888103, 3248222580,   -- 72be5d74 80deb1fe 9bdc06a7 c19bf174
   3835390401, 4022224774, 264347078, 604807628,     -- e49b69c1 efbe4786 0fc19dc6 240ca1cc
   770255983, 1249150122, 1555081692, 1996064986,    -- 2de92c6f 4a7484aa 5cb0a9dc 76f988da
   2554220882, 2821834349, 2952996808, 3210313671,   -- 983e5152 a831c66d b00327c8 bf597fc7
   3336571891, 3584528711, 113926993, 338241895,     -- c6e00bf3 d5a79147 06ca6351 14292967
   666307205, 773529912, 1294757372, 1396182291,     -- 27b70a85 2e1b2138 4d2c6dfc 53380d13
   1695183700, 1986661051, 2177026350, 2456956037,   -- 650a7354 766a0abb 81c2c92e 92722c85
   2730485921, 2820302411, 3259730800, 3345764771,   -- a2bfe8a1 a81a664b c24b8b70 c76c51a3
   3516065817, 3600352804, 4094571909, 275423344,    -- d192e819 d6990624 f40e3585 106aa070
   430227734, 506948616, 659060556, 883997877,       -- 19a4c116 1e376c08 2748774c 34b0bcb5
   958139571, 1322822218, 1537002063, 1747873779,    -- 391c0cb3 4ed8aa4a 5b9cca4f 682e6ff3
   1955562222, 2024104815, 2227730452, 2361852424,   -- 748f82ee 78a5636f 84c87814 8cc70208
   2428436474, 2756734187, 3204031479, 3329325298]   -- 90befffa a4506ceb bef9a3f7 c67178f2

/-- Working state: eight 32-bit words. -/
structure Sha8 where
  a : Nat
  b : Nat
  c : Nat
  d : Nat
  e : Nat
  f : Nat
  g : Nat
  h : Nat

/-- Initial SHA-256 hash value (6a09e667 bb67ae85 3c6ef372 a54ff53a
510e527f 9b05688c 1f83d9ab 5be0cd19), in decimal. -/
def initH : Sha8 :=
  ⟨1779033703, 3144134277, 1013904242, 2773480762,
   1359893119, 2600822924, 528734635, 1541459225⟩

/-- Next word of the message schedule, from the last sixteen words. -/
def nextW (w : List Nat) : Nat :=
  t32 (ssig1 (w.getD (w.length - 2) 0) + w.getD (w.length - 7) 0 +
       ssig0 (w.getD (w.length - 15) 0) + w.getD (w.length - 16) 0)

/-- Extend the schedule by `n` further words. -/
def extW : Nat → List Nat → List Nat
  | 0, w => w
  | n + 1, w => extW n (w ++ [nextW w])

/-- One SHA-256 round for constant/schedule pair `kw`. -/
def roundStep (st : Sha8) (kw : Nat × Nat) : Sha8 :=
  let t1 := t32 (st.h + bsig1 st.e + shaCh st.e st.f st.g + kw.1 + kw.2)
  let t2 := t32 (bsig0 st.a + shaMaj st.a st.b st.c)
  ⟨t32 (t1 + t2), st.a, st.b, st.c, t32 (st.d + t1), st.e, st.f, st.g⟩

/-- Compress one 16-word block into the running state. -/
def compressBlock (st : Sha8) (block : List Nat) : Sha8 :=
  let w := extW 48 block
  let r := (kConst.zip w).foldl roundStep st
  ⟨t32 (st.a + r.a), t32 (st.b + r.b), t32 (st.c + r.c), t32 (st.d + r.d),
   t32 (st.e + r.e), t32 (st.f + r.f), t32 (st.g + r.g), t32 (st.h + r.h)⟩

/-- Big-endian 64-bit byte rendering of the bit length. -/
def be64 (n : Nat) : List Nat :=
  [(n >>> 56) % 256, (n >>> 48) % 256, (n >>> 40) % 256, (n >>> 32) % 256,
   (n >>> 24) % 256, (n >>> 16) % 256, (n >>> 8) % 256, n % 256]

/-- SHA-256 padding: `0x80`, zeros to 56 mod 64, then the 64-bit bit length. -/
def padMsg (m : List Nat) : List Nat :=
  m ++ [128] ++ List.replicate ((119 - m.length % 64) % 64) 0 ++ be64 (8 * m.length)

/-- Split a byte list into 64-byte chunks (fuel-structural for kernel
evaluation; `fuel ≥ length` suffices). -/
def chunks64 : Nat → List Nat → List (List Nat)
  | 0, _ => []
  | _ + 1, [] => []
  | fuel + 1, l => l.take 64 :: chunks64 fuel (l.drop 64)

/-- Four bytes to one big-endian 32-bit word, over a whole chunk. -/
def wordsOf : List Nat → List Nat
  | b0 :: b1 :: b2 :: b3 :: rest => ((b0 <<< 24) + (b1 <<< 16) + (b2 <<< 8) + b3) :: wordsOf rest
  | _ => []

/-- The SHA-256 state after absorbing a whole byte message. -/
def sha256words (msg : List Nat) : Sha8 :=
  ((chunks64 (padMsg msg).length (padMsg msg)).map wordsOf).foldl compressBlock initH

/-- One 32-bit word as eight lowercase hex characters, big-endian. -/
def wordHex (w : Nat) : List Char :=
  [hexChar (w >>> 28), hexChar (w >>> 24), hexChar (w >>> 20), hexChar (w >>> 16),
   hexChar (w >>> 12), hexChar (w >>> 8), hexChar (w >>> 4), hexChar w]

/-- Full lowercase-hex SHA-256 digest of a byte message. -/
def sha256hexL (msg : List Nat) : List Char :=
  let s := sha256words msg
  wordHex s.a ++ wordHex s.b ++ wordHex s.c ++ wordHex s.d ++
  wordHex s.e ++ wordHex s.f ++ wordHex s.g ++ wordHex s.h

/-- Full lowercase-hex SHA-256 digest of a string (bytes of its UTF-8 form;
every concrete input in this development is ASCII, where the bytes are the
code points).  This is what `Sha256::result_str` returns. -/
def sha256hex (s : String) : String := ⟨sha256hexL (s.data.map Char.toNat)⟩

/-! ## Package identity and the crate hash (`build_link_meta`,
`truncated_hash_result`). -/

/-- Package identity.  Modelled from the spec: `PackageIdentity` is
`name`, optional `version` (defaulting to `"0.0"`), and a source locator
(the `path`); `syntax::pkgid::PkgId` itself is not among the sources under
review. -/
structure PkgId where
  path : String
  name : String
  version : Option String

/-- Declared version, or the `"0.0"` default (`version_or_default`). -/
def versionOrDefault (p : PkgId) : String := p.version.getD "0.0"

/-- Canonical string form of a package id.  Modelled from the spec: the
identity is canonicalized to a string of the shape the source comment gives,
`github.com/mozilla/CNAME#CVERS` — locator, `#`, version. -/
def pkgidToStr (p : PkgId) : String := p.path ++ "#" ++ versionOrDefault p

/-- The hash-result step shared by the crate hash and the symbol hash (source
lines 476-478).  Despite its name it applies no truncation: it returns
`result_str()`, the full 64-character hex digest.  The source's reset/input
sequence collapses to a pure function of the input string. -/
def truncated_hash_result (input : String) : String := sha256hex input

/-- The crate hash CMH (the inner `crate_hash` of `build_link_meta`, source
lines 450-454): hash of the canonical package-id string. -/
def crate_hash (pkgid : PkgId) : String := truncated_hash_result (pkgidToStr pkgid)

/-- Link metadata: package identity plus crate hash (`LinkMeta`). -/
structure LinkMeta where
  pkgid : PkgId
  crate_hash : String

/-- `build_link_meta` with an explicitly declared package id (the
attribute-supplied case; the inference-from-filename case differs only in
where the `PkgId` comes from). -/
def build_link_meta (pkgid : PkgId) : LinkMeta := ⟨pkgid, crate_hash pkgid⟩

/-! ## Name sanitation (`sanitize`, source lines 517-559). -/

/-- Pad `n` to `k` lowercase hex characters, big-endian. -/
def hexPad : Nat → Nat → List Char
  | 0, _ => []
  | k + 1, n => hexChar (n >>> (4 * k)) :: hexPad k n

/-- The output of `char::escape_unicode` without its leading backslash:
`x`/`u`/`U` by code-point size, then 2/4/8 lowercase hex digits.  Modelled
from the spec ("escape any remaining non-identifier character by its numeric
code point"); `std::char` is not among the sources under review. -/
def escTail (c : Char) : List Char :=
  if c.toNat ≤ 255 then 'x' :: hexPad 2 c.toNat
  else if c.toNat ≤ 65535 then 'u' :: hexPad 4 c.toNat
  else 'U' :: hexPad 8 c.toNat

/-- Per-character step of `sanitize`: the `match` arms of the source loop, in
source order (note `'*'` and `')'` both map to `"$RP$"`, as in the source). -/
def sanChar (c : Char) : List Char :=
  if c = '@' then ['$', 'S', 'P', '$']
  else if c = '~' then ['$', 'U', 'P', '$']
  else if c = '*' then ['$', 'R', 'P', '$']
  else if c = '&' then ['$', 'B', 'P', '$']
  else if c = '<' then ['$', 'L', 'T', '$']
  else if c = '>' then ['$', 'G', 'T', '$']
  else if c = '(' then ['$', 'L', 'P', '$']
  else if c = ')' then ['$', 'R', 'P', '$']
  else if c = ',' then ['$', 'C', '$']
  else if c = '-' ∨ c = ':' then ['.']
  else if legalChar c then [c]
  else '$' :: escTail c

/-- The underscore-qualification step at the end of `sanitize`: an escaped
result whose first byte is neither `'_'` nor XID_start gets a `'_'` in front
(an empty result is returned as is: `result.len() > 0` fails). -/
def underscoreQualify (r : List Char) : List Char :=
  match r with
  | [] => []
  | c :: cs => if c = '_' then c :: cs
               else if isXIDStartA c then c :: cs
               else '_' :: c :: cs

/-- `sanitize`: escape every character, then underscore-qualify anything that
did not start as an identifier. -/
def sanitize (s : List Char) : List Char := underscoreQualify (s.flatMap sanChar)

/-! ## The mangler (`mangle`, source lines 561-622). -/

/-- One element of an `ast_map::path`: `path_mod`, `path_name`, or
`path_pretty_name` with its `u64` disambiguator. -/
inductive PathElem where
  | md (s : List Char)
  | nm (s : List Char)
  | pretty (s : List Char) (extra : Nat)
deriving DecidableEq

/-- The identifier string of a path element (every arm of the source `match`
pushes the element's interned string). -/
def eltStr : PathElem → List Char
  | .md s => s
  | .nm s => s
  | .pretty s _ => s

/-- The fixed 62-character alphabet `EXTRA_CHARS`, as written in the
source. -/
def extraChars62 : List Char :=
  "abcdefghijklmnopqrstuvwxyzABCDEFGHIJKLMNOPQRSTUVWXYZ0123456789".data

/-- `EXTRA_CHARS[i % EXTRA_CHARS.len()]`. -/
def exChar (i : Nat) : Char := extraChars62.getD (i % 62) 'a'

/-- The two disambiguator characters a `path_pretty_name` element appends to
the hash string: `EXTRA_CHARS` at the high and at the low 32 bits of the
`u64` `extra`, each index taken modulo 62. -/
def disambChars : PathElem → List Char
  | .pretty _ e => [exChar ((e >>> 32) % 2 ^ 32), exChar (e % 2 ^ 32)]
  | _ => []

/-- The `push` closure of `mangle`: sanitize, then length-prefix with the
byte length (equal to the character count: sanitized strings are ASCII). -/
def pushStr (s : List Char) : List Char := decChars (sanitize s).length ++ sanitize s

/-- `mangle`: `_ZN`, length-prefixed sanitized components, then (if nonempty)
the supplied hash extended with two characters per `path_pretty_name`
element, then (if supplied) the version, then `E`. -/
def mangle (ss : List PathElem) (hash : Option (List Char)) (vers : Option (List Char)) :
    List Char :=
  let n1 := ss.foldl (fun n s => n ++ pushStr (eltStr s)) ['_', 'Z', 'N']
  let h1 := ss.foldl (fun h s => h ++ disambChars s) (hash.getD [])
  let n2 := if h1.length > 0 then n1 ++ pushStr h1 else n1
  let n3 := match vers with
            | some s => n2 ++ pushStr s
            | none => n2
  n3 ++ ['E']

/-- The effective hash string `mangle` pushes: the supplied hash (or `""`)
with the disambiguator characters of every pretty element appended in path
order. -/
def effHash (ss : List PathElem) (hash : Option (List Char)) : List Char :=
  hash.getD [] ++ ss.flatMap disambChars

/-- Length-prefixed concatenation of already-sanitized segments. -/
def encSegs (segs : List (List Char)) : List Char :=
  segs.flatMap fun s => decChars s.length ++ s

/-- The hash segment as a (possibly empty) segment list: pushed only when
the effective hash is nonempty. -/
def hashSegs (h : List Char) : List (List Char) :=
  if h = [] then [] else [sanitize h]

/-- The version segment as a (possibly empty) segment list. -/
def versSegs : Option (List Char) → List (List Char)
  | some s => [sanitize s]
  | none => []

/-- The full segment sequence `mangle` emits between `_ZN` and `E`:
sanitized path components, then the sanitized effective hash when nonempty,
then the sanitized version when supplied. -/
def pushedSegs (ss : List PathElem) (hash vers : Option (List Char)) :
    List (List Char) :=
  ss.map (fun s => sanitize (eltStr s)) ++ hashSegs (effHash ss hash) ++ versSegs vers

/-! ## Per-type symbol hash and its cache (`symbol_hash`,
`get_symbol_hash`, source lines 482-511). -/

/-- The slice of `CrateContext` the symbol-hash computation touches: the link
metadata, the type-encoding collaborator (`encoder::encoded_ty`, external),
and the `type_hashcodes` cache.  `τ` stands for `ty::t`; the source compares
types by interned identity, embedded here as decidable equality. -/
structure SymCtxt (τ : Type) where
  linkMeta : LinkMeta
  encTy : τ → String
  type_hashcodes : List (τ × String)

/-- Cache lookup (`HashMap::find`): first binding for the type. -/
def lookupHash [DecidableEq τ] (l : List (τ × String)) (t : τ) : Option String :=
  (l.find? fun p => p.1 = t).map (·.2)

/-- `symbol_hash`: hash of `name - crate_hash - encoded type`, prefixed with
`'h'` so the result never starts with a digit.  Pure: it reads the context but
only the wrapper below writes the cache. -/
def symbol_hash (ctx : SymCtxt τ) (t : τ) : String :=
  "h" ++ truncated_hash_result
    (ctx.linkMeta.pkgid.name ++ "-" ++ ctx.linkMeta.crate_hash ++ "-" ++ ctx.encTy t)

/-- `get_symbol_hash`: return the cached hash, or compute, insert, and return
it.  The `Bool` records whether the underlying computation ran (the `None`
arm of the source `match`). -/
def get_symbol_hash [DecidableEq τ] (ccx : SymCtxt τ) (t : τ) :
    String × SymCtxt τ × Bool :=
  match lookupHash ccx.type_hashcodes t with
  | some h => (h, ccx, false)
  | none =>
    let h := symbol_hash ccx t
    (h, { ccx with type_hashcodes := (t, h) :: ccx.type_hashcodes }, true)

/-! ## Output filenames (`output_lib_filename`, `link_binary_output`,
source lines 684-689 and 752-777). -/

/-- `output_lib_filename`: `name - first 8 crate-hash characters - version`
(`slice_chars(0, 8)` is character slicing). -/
def output_lib_filename (lm : LinkMeta) : String :=
  lm.pkgid.name ++ "-" ++ String.mk (lm.crate_hash.data.take 8) ++ "-" ++
    versionOrDefault lm.pkgid

/-- The requested output styles (`session::OutputStyle`). -/
inductive OutputStyle where
  | rlib
  | dylib
  | staticlib
  | exe
deriving DecidableEq

/-- A filesystem path split as directory and filename, so that
`with_filename` is replacement of the second component. -/
structure OutPath where
  dir : String
  file : String
deriving DecidableEq

/-- `Path::with_filename`. -/
def withFileName (p : OutPath) (f : String) : OutPath := ⟨p.dir, f⟩

/-- The output path `link_binary_output` derives from the requested style,
the platform dynamic-library prefix/suffix pair, the link metadata, and the
user-specified output path. -/
def outFilePath (style : OutputStyle) (dllPre dllSuf : String) (lm : LinkMeta)
    (userOut : OutPath) : OutPath :=
  match style with
  | .rlib => withFileName userOut ("lib" ++ output_lib_filename lm ++ ".rlib")
  | .dylib => withFileName userOut (dllPre ++ output_lib_filename lm ++ dllSuf)
  | .staticlib => withFileName userOut ("lib" ++ output_lib_filename lm ++ ".a")
  | .exe => userOut

/-! ## Writability check (`is_writeable` and the pre-link check of
`link_binary_output`, source lines 743-750 and 779-792). -/

/-- What `Path::stat` reports: the permission bits. -/
structure FileStat where
  perm : Nat
deriving DecidableEq

/-- `io::UserWrite` (0o200). -/
def userWrite : Nat := 128

/-- `is_writeable`: a failed `stat` (in particular a missing file) counts as
writeable; otherwise the user-write bit must be set.  The filesystem is an
explicit environment mapping a path to its stat result, `none` for failure. -/
def is_writeable (fs : String → Option FileStat) (p : String) : Bool :=
  match fs p with
  | none => true
  | some m => m.perm &&& userWrite == userWrite

/-- The pre-link writability check of `link_binary_output`: the output path
is examined first, then the object path; `some` is the fatal error message. -/
def writeCheck (fs : String → Option FileStat) (objFile outFile : String) :
    Option String :=
  let objW := is_writeable fs objFile
  let outW := is_writeable fs outFile
  if !outW then
    some ("Output file " ++ outFile ++ " is not writeable -- check its permissions.")
  else if !objW then
    some ("Object file " ++ objFile ++ " is not writeable -- check its permissions.")
  else none

/-! ## Upstream crate resolution and the native linker driver
(`add_upstream_rust_crates`, `link_natively`, source lines 917-952 and
1080-1174). -/

/-- Path helpers over `/`-separated strings (the `std::path` accessors used
by the driver; list-based so the kernel evaluates them). -/
def fileNameStr (s : String) : String :=
  String.mk ((s.data.reverse.takeWhile (· ≠ '/')).reverse)

/-- Directory part: everything before the final `/`, empty when there is
none. -/
def dirNameStr (s : String) : String :=
  String.mk (((s.data.reverse.dropWhile (· ≠ '/')).drop 1).reverse)

/-- File stem: the filename with everything from its final `.` removed. -/
def fileStemStr (s : String) : String :=
  let f := fileNameStr s
  if f.data.contains '.' then
    String.mk (((f.data.reverse.dropWhile (· ≠ '.')).drop 1).reverse)
  else f

/-- `unlib`: turn a library file stem into a `-l` name by dropping a leading
`lib`, except on win32. -/
def unlib (osWin32 : Bool) (stem : String) : String :=
  if ("lib".data.isPrefixOf stem.data) && !osWin32 then String.mk (stem.data.drop 3)
  else stem

/-- One used upstream crate as the crate store reports it.  Modelled from the
spec (`CrateDependency`): crate number, name, optional static-archive (rlib)
path, optional dynamic-library path; `metadata::cstore` is not among the
sources under review.  `get_used_crates(RequireStatic)` projects the rlib
path, `RequireDynamic` the dylib path. -/
structure UsedCrate where
  cnum : Nat
  name : String
  rlib : Option String
  dylib : Option String
deriving DecidableEq

/-- The inputs `add_upstream_rust_crates` and `link_natively` consult:
output kind, linkage preference, LTO, target OS, the used-crate list in
store order, the archive members found at each on-disk archive path
(the Archive collaborator, modelled from the spec as a member-name list),
and the scratch directory for LTO archive rewriting. -/
structure LinkCfg where
  dylibOut : Bool
  preferDyn : Bool
  lto : Bool
  osWin32 : Bool
  crates : List UsedCrate
  archiveMembers : String → List String
  tmpdir : String

/-- The condition for the all-static branch: executable output, dynamic
linking not preferred, and a static archive present for every used crate. -/
def allStaticCond (cfg : LinkCfg) : Bool :=
  !cfg.dylibOut && !cfg.preferDyn && cfg.crates.all fun c => c.rlib.isSome

/-- Arguments one crate contributes on the all-static path.  Without LTO the
rlib path itself; under LTO a copy in the scratch directory with the crate's
own object `name.o` removed (`Archive::remove_file`, first occurrence; a
no-op when absent), pushed only if some `.o` member remains. -/
def staticCrateArgs (cfg : LinkCfg) (c : UsedCrate) : List String :=
  match c.rlib with
  | none => []
  | some p =>
    if cfg.lto then
      let dst := cfg.tmpdir ++ "/" ++ fileNameStr p
      let members := (cfg.archiveMembers p).erase (c.name ++ ".o")
      if members.any (fun m => ".o".data.isSuffixOf m.data) then [dst] else []
    else [p]

/-- Arguments one crate contributes on the all-dynamic path: a `-L` for the
directory when nonempty, and a `-l` for the unlibbed stem. -/
def dynCrateArgs (osWin32 : Bool) (p : String) : List String :=
  (if dirNameStr p ≠ "" then ["-L" ++ dirNameStr p] else []) ++
  ["-l" ++ unlib osWin32 (fileStemStr p)]

/-- The error message for a crate with no dynamic library. -/
def noDylibErr (c : UsedCrate) : String :=
  "could not find dynamic library for: `" ++ c.name ++ "`"

/-- The fallback loop of `add_upstream_rust_crates`: walk the used crates;
a crate with no dynamic-library path raises the error and returns from the
whole function (so later crates contribute neither arguments nor errors);
otherwise push its `-L`/`-l` arguments. -/
def dynLoop (osWin32 : Bool) : List UsedCrate → List String × List String
  | [] => ([], [])
  | c :: rest =>
    match c.dylib with
    | none => ([], [noDylibErr c])
    | some p =>
      let r := dynLoop osWin32 rest
      (dynCrateArgs osWin32 p ++ r.1, r.2)

/-- `add_upstream_rust_crates`: the arguments it appends and the session
errors it raises.  All-static branch when `allStaticCond` holds, otherwise
the all-dynamic fallback.  (The source also asserts `!sess.lto()` on the
fallback; the assertion is outside the claims under review.) -/
def add_upstream_rust_crates (cfg : LinkCfg) : List String × List String :=
  if allStaticCond cfg then (cfg.crates.flatMap (staticCrateArgs cfg), [])
  else dynLoop cfg.osWin32 cfg.crates

/-- Outcome of `link_natively`: either the build aborts on accumulated
errors, or the system linker subprocess is spawned with the assembled
arguments. -/
inductive LinkOutcome where
  | aborted (errors : List String)
  | invoked (args : List String)
deriving DecidableEq

/-- `link_natively` restricted to what the claims consult: assemble the
argument vector (`link_args` places the upstream-crate arguments between
the local ones, `pre`, and the trailing ones, `post`), then
`sess.abort_if_errors()` — and only past that check spawn the subprocess. -/
def link_natively (cfg : LinkCfg) (pre post : List String) : LinkOutcome :=
  let r := add_upstream_rust_crates cfg
  if r.2 = [] then .invoked (pre ++ r.1 ++ post) else .aborted r.2

/-- An argument of the dynamic-resolution form: a library search path or a
library name. -/
def dynFormArg (a : String) : Bool :=
  "-L".data.isPrefixOf a.data || "-l".data.isPrefixOf a.data

/-- Head-of-list characterization used for segment parsing: the list is
empty or its head is not a decimal digit.  Every sanitized string satisfies
it (`headNotDig_sanitize`). -/
def headNotDig (x : List Char) : Prop :=
  ∀ c cs, x = c :: cs → isDig c = false

/-! # Theorems -/

/-! ## Character classes and decimal rendering -/

theorem isXIDStartA_not_dig {c : Char} (h : isXIDStartA c = true) : isDig c = false := by
  cases hD : isDig c
  · rfl
  · exfalso
    simp only [isDig, Bool.and_eq_true, decide_eq_true_eq] at hD
    simp only [isXIDStartA, Bool.or_eq_true, Bool.and_eq_true, decide_eq_true_eq] at h
    omega

theorem hexChar_mem (n : Nat) : hexChar n ∈ hexDigits := by
  have h : n % 16 < 16 := Nat.mod_lt _ (by norm_num)
  unfold hexChar
  revert h
  generalize n % 16 = m
  intro h
  interval_cases m <;> decide

theorem decCharsF_stable : ∀ (f g n : Nat), n < f → n < g → decCharsF f n = decCharsF g n := by
  intro f
  induction f with
  | zero => intro g n h; omega
  | succ f ih =>
    intro g n hf hg
    cases g with
    | zero => omega
    | succ g =>
      simp only [decCharsF]
      by_cases h10 : n < 10
      · simp [h10]
      · have hn : 0 < n := by omega
        have hd : n / 10 < n := Nat.div_lt_self hn (by norm_num)
        simp only [h10, if_false]
        rw [ih g (n / 10) (by omega) (by omega)]

theorem decChars_eq (n : Nat) :
    decChars n =
      if n < 10 then [Char.ofNat (48 + n)]
      else decChars (n / 10) ++ [Char.ofNat (48 + n % 10)] := by
  have h1 : decChars n = decCharsF (n + 1) n := rfl
  rw [h1]
  simp only [decCharsF]
  by_cases h10 : n < 10
  · simp [h10]
  · have hn : 0 < n := by omega
    have hd : n / 10 < n := Nat.div_lt_self hn (by norm_num)
    simp only [h10, if_false]
    have h2 : decChars (n / 10) = decCharsF (n / 10 + 1) (n / 10) := rfl
    rw [h2, decCharsF_stable n (n / 10 + 1) (n / 10) (by omega) (by omega)]

theorem digit_char_isDig {m : Nat} (h : m < 10) : isDig (Char.ofNat (48 + m)) = true := by
  interval_cases m <;> decide

theorem digit_char_legal {m : Nat} (h : m < 10) : legalChar (Char.ofNat (48 + m)) = true := by
  interval_cases m <;> decide

theorem digit_char_zero {m : Nat} (h : m < 10) : Char.ofNat (48 + m) = '0' ↔ m = 0 := by
  interval_cases m <;> decide

theorem decChars_all_dig (n : Nat) : ∀ c ∈ decChars n, isDig c = true := by
  induction n using Nat.strong_induction_on with
  | _ n ih =>
    rw [decChars_eq]
    by_cases h10 : n < 10
    · simp only [h10, if_true, List.mem_singleton]
      rintro c rfl
      exact digit_char_isDig h10
    · have hn : 0 < n := by omega
      have hd : n / 10 < n := Nat.div_lt_self hn (by norm_num)
      simp only [h10, if_false, List.mem_append, List.mem_singleton]
      rintro c (hc | rfl)
      · exact ih (n / 10) hd c hc
      · exact digit_char_isDig (Nat.mod_lt _ (by norm_num))

theorem decChars_ne_nil (n : Nat) : decChars n ≠ [] := by
  rw [decChars_eq]
  by_cases h10 : n < 10 <;> simp [h10]

theorem decChars_head_ne_zero :
    ∀ n : Nat, 1 ≤ n → ∀ c cs, decChars n = c :: cs → c ≠ '0' := by
  intro n
  induction n using Nat.strong_induction_on with
  | _ n ih =>
    intro hn c cs hc
    rw [decChars_eq] at hc
    by_cases h10 : n < 10
    · simp only [h10, if_true, List.cons.injEq] at hc
      rcases hc with ⟨rfl, -⟩
      rw [Ne, digit_char_zero h10]
      omega
    · have hpos : 0 < n := by omega
      have hd : n / 10 < n := Nat.div_lt_self hpos (by norm_num)
      have hd1 : 1 ≤ n / 10 := by
        have h2 : 10 ≤ n := by omega
        exact (Nat.one_le_div_iff (by norm_num)).2 h2
      simp only [h10, if_false] at hc
      rcases hh : decChars (n / 10) with _ | ⟨d, ds⟩
      · exact absurd hh (decChars_ne_nil _)
      · rw [hh] at hc
        simp only [List.cons_append, List.cons.injEq] at hc
        rcases hc with ⟨rfl, -⟩
        exact ih (n / 10) hd hd1 d ds hh

theorem valOf_decChars (n : Nat) : valOfDigits (decChars n) = n := by
  induction n using Nat.strong_induction_on with
  | _ n ih =>
    rw [decChars_eq]
    by_cases h10 : n < 10
    · simp only [h10, if_true, valOfDigits, List.foldl_cons, List.foldl_nil]
      interval_cases n <;> decide
    · have hpos : 0 < n := by omega
      have hd : n / 10 < n := Nat.div_lt_self hpos (by norm_num)
      simp only [h10, if_false, valOfDigits, List.foldl_append, List.foldl_cons,
        List.foldl_nil]
      have hrec := ih (n / 10) hd
      unfold valOfDigits at hrec
      rw [hrec]
      have hm : (Char.ofNat (48 + n % 10)).toNat = 48 + n % 10 := by
        have hlt : n % 10 < 10 := Nat.mod_lt _ (by norm_num)
        revert hlt
        generalize n % 10 = m
        intro hlt
        interval_cases m <;> decide
      rw [hm]
      omega

theorem decChars_inj {m n : Nat} (h : decChars m = decChars n) : m = n := by
  have := valOf_decChars m
  rw [h, valOf_decChars] at this
  omega

/-! ## Unambiguous parsing of length-prefixed segments

The mangled name concatenates `decChars (length s) ++ s` for sanitized
segments `s`.  Because a decimal rendering never has a leading zero (except
`"0"` itself) and a sanitized segment never starts with a digit, the digit
run at the front of each encoded segment is exactly its length, so the
concatenation determines the segment list uniquely. -/

theorem digit_run_split :
    ∀ (d1 : List Char) (d2 x1 x2 : List Char),
      (∀ c ∈ d1, isDig c = true) → (∀ c ∈ d2, isDig c = true) →
      headNotDig x1 → headNotDig x2 →
      d1 ++ x1 = d2 ++ x2 → d1 = d2 ∧ x1 = x2 := by
  intro d1
  induction d1 with
  | nil =>
    intro d2 x1 x2 _ hd2 hx1 _ heq
    cases d2 with
    | nil => exact ⟨rfl, heq⟩
    | cons b t2 =>
      exfalso
      simp only [List.nil_append, List.cons_append] at heq
      have hb : isDig b = true := hd2 b (by simp)
      have := hx1 b (t2 ++ x2) heq
      rw [this] at hb
      exact Bool.false_ne_true hb
  | cons a t1 ih =>
    intro d2 x1 x2 hd1 hd2 hx1 hx2 heq
    cases d2 with
    | nil =>
      exfalso
      simp only [List.cons_append, List.nil_append] at heq
      have ha : isDig a = true := hd1 a (by simp)
      have := hx2 a (t1 ++ x1) heq.symm
      rw [this] at ha
      exact Bool.false_ne_true ha
    | cons b t2 =>
      simp only [List.cons_append, List.cons.injEq] at heq
      rcases heq with ⟨rfl, heq⟩
      have := ih t2 x1 x2 (fun c hc => hd1 c (by simp [hc]))
        (fun c hc => hd2 c (by simp [hc])) hx1 hx2 heq
      exact ⟨by rw [this.1], this.2⟩

theorem enc_head_split {s1 s2 r1 r2 : List Char}
    (h1 : headNotDig s1) (h2 : headNotDig s2)
    (heq : decChars s1.length ++ s1 ++ r1 = decChars s2.length ++ s2 ++ r2) :
    s1 = s2 ∧ r1 = r2 := by
  cases s1 with
  | nil =>
    cases s2 with
    | nil =>
      refine ⟨rfl, ?_⟩
      have h0 : decChars ([] : List Char).length = ['0'] := rfl
      rw [h0] at heq
      simpa using heq
    | cons b t2 =>
      exfalso
      have h0 : decChars ([] : List Char).length = ['0'] := rfl
      rw [h0] at heq
      rcases hh : decChars (b :: t2).length with _ | ⟨d, ds⟩
      · exact absurd hh (decChars_ne_nil _)
      · rw [hh] at heq
        simp only [List.cons_append, List.nil_append, List.append_nil,
          List.cons.injEq] at heq
        exact decChars_head_ne_zero (b :: t2).length (by simp) d ds hh heq.1.symm
  | cons a t1 =>
    cases s2 with
    | nil =>
      exfalso
      have h0 : decChars ([] : List Char).length = ['0'] := rfl
      rw [h0] at heq
      rcases hh : decChars (a :: t1).length with _ | ⟨d, ds⟩
      · exact absurd hh (decChars_ne_nil _)
      · rw [hh] at heq
        simp only [List.cons_append, List.nil_append, List.append_nil,
          List.cons.injEq] at heq
        exact decChars_head_ne_zero (a :: t1).length (by simp) d ds hh heq.1
    | cons b t2 =>
      rw [List.append_assoc, List.append_assoc] at heq
      have hsplit := digit_run_split (decChars (a :: t1).length) (decChars (b :: t2).length)
        ((a :: t1) ++ r1) ((b :: t2) ++ r2)
        (decChars_all_dig _) (decChars_all_dig _)
        (by
          intro c cs hc
          simp only [List.cons_append, List.cons.injEq] at hc
          rcases hc with ⟨rfl, -⟩
          exact h1 a t1 rfl)
        (by
          intro c cs hc
          simp only [List.cons_append, List.cons.injEq] at hc
          rcases hc with ⟨rfl, -⟩
          exact h2 b t2 rfl)
        heq
      have hlen : (a :: t1).length = (b :: t2).length := decChars_inj hsplit.1
      exact List.append_inj hsplit.2 hlen

theorem encSegs_inj :
    ∀ (P1 P2 : List (List Char)),
      (∀ s ∈ P1, headNotDig s) → (∀ s ∈ P2, headNotDig s) →
      encSegs P1 = encSegs P2 → P1 = P2 := by
  intro P1
  induction P1 with
  | nil =>
    intro P2 _ hP2 heq
    cases P2 with
    | nil => rfl
    | cons s t =>
      exfalso
      simp only [encSegs, List.flatMap_nil, List.flatMap_cons] at heq
      rcases hh : decChars s.length with _ | ⟨d, ds⟩
      · exact absurd hh (decChars_ne_nil _)
      · rw [hh] at heq
        exact List.noConfusion heq.symm
  | cons s1 t1 ih =>
    intro P2 hP1 hP2 heq
    cases P2 with
    | nil =>
      exfalso
      simp only [encSegs, List.flatMap_nil, List.flatMap_cons] at heq
      rcases hh : decChars s1.length with _ | ⟨d, ds⟩
      · exact absurd hh (decChars_ne_nil _)
      · rw [hh] at heq
        exact List.noConfusion heq
    | cons s2 t2 =>
      simp only [encSegs, List.flatMap_cons] at heq
      rw [List.append_assoc, List.append_assoc] at heq
      have hsp := enc_head_split (hP1 s1 (by simp)) (hP2 s2 (by simp))
        (by rw [List.append_assoc, List.append_assoc]; exact heq)
      rcases hsp with ⟨rfl, hrest⟩
      have := ih t2 (fun s hs => hP1 s (by simp [hs])) (fun s hs => hP2 s (by simp [hs]))
        hrest
      rw [this]

/-! ## Sanitizer properties -/

theorem hexPad_mem : ∀ (k n : Nat) (c : Char), c ∈ hexPad k n → c ∈ hexDigits := by
  intro k
  induction k with
  | zero => intro n c hc; simp [hexPad] at hc
  | succ k ih =>
    intro n c hc
    simp only [hexPad, List.mem_cons] at hc
    rcases hc with rfl | hc
    · exact hexChar_mem _
    · exact ih n c hc

theorem hexDigits_legal : ∀ c ∈ hexDigits, legalChar c = true := by decide

set_option maxHeartbeats 1000000 in
theorem sanChar_legal (c : Char) : ∀ x ∈ sanChar c, legalChar x = true := by
  intro x hx
  unfold sanChar at hx
  split_ifs at hx with h1 h2 h3 h4 h5 h6 h7 h8 h9 h10 h11
  · simp only [List.mem_cons, List.not_mem_nil, or_false] at hx
    rcases hx with rfl | rfl | rfl | rfl <;> decide
  · simp only [List.mem_cons, List.not_mem_nil, or_false] at hx
    rcases hx with rfl | rfl | rfl | rfl <;> decide
  · simp only [List.mem_cons, List.not_mem_nil, or_false] at hx
    rcases hx with rfl | rfl | rfl | rfl <;> decide
  · simp only [List.mem_cons, List.not_mem_nil, or_false] at hx
    rcases hx with rfl | rfl | rfl | rfl <;> decide
  · simp only [List.mem_cons, List.not_mem_nil, or_false] at hx
    rcases hx with rfl | rfl | rfl | rfl <;> decide
  · simp only [List.mem_cons, List.not_mem_nil, or_false] at hx
    rcases hx with rfl | rfl | rfl | rfl <;> decide
  · simp only [List.mem_cons, List.not_mem_nil, or_false] at hx
    rcases hx with rfl | rfl | rfl | rfl <;> decide
  · simp only [List.mem_cons, List.not_mem_nil, or_false] at hx
    rcases hx with rfl | rfl | rfl | rfl <;> decide
  · simp only [List.mem_cons, List.not_mem_nil, or_false] at hx
    rcases hx with rfl | rfl | rfl <;> decide
  · simp only [List.mem_singleton] at hx
    subst hx
    decide
  · simp only [List.mem_singleton] at hx
    subst hx
    exact h11
  · simp only [List.mem_cons] at hx
    rcases hx with rfl | hx
    · decide
    · unfold escTail at hx
      split_ifs at hx <;>
        (simp only [List.mem_cons] at hx
         rcases hx with rfl | hx
         · decide
         · exact hexDigits_legal x (hexPad_mem _ _ x hx))

theorem sanitize_legal (s : List Char) : ∀ x ∈ sanitize s, legalChar x = true := by
  intro x hx
  have base : ∀ y ∈ s.flatMap sanChar, legalChar y = true := by
    intro y hy
    rw [List.mem_flatMap] at hy
    rcases hy with ⟨a, -, hy⟩
    exact sanChar_legal a y hy
  unfold sanitize at hx
  rcases hfm : s.flatMap sanChar with _ | ⟨c, cs⟩ <;> rw [hfm] at hx
  · simp [underscoreQualify] at hx
  · simp only [underscoreQualify] at hx
    split_ifs at hx with hc1 hc2
    · exact base x (by rw [hfm]; exact hx)
    · exact base x (by rw [hfm]; exact hx)
    · simp only [List.mem_cons] at hx
      rcases hx with rfl | hx
      · decide
      · exact base x (by rw [hfm]; exact List.mem_cons.2 hx)

theorem sanitize_head (s : List Char) :
    ∀ c cs, sanitize s = c :: cs → c = '_' ∨ isXIDStartA c = true := by
  intro c cs hx
  unfold sanitize at hx
  rcases hfm : s.flatMap sanChar with _ | ⟨d, ds⟩ <;> rw [hfm] at hx
  · simp [underscoreQualify] at hx
  · simp only [underscoreQualify] at hx
    split_ifs at hx with hc1 hc2
    · cases hx
      exact Or.inl hc1
    · cases hx
      exact Or.inr hc2
    · cases hx
      exact Or.inl rfl

theorem headNotDig_sanitize (s : List Char) : headNotDig (sanitize s) := by
  intro c cs hx
  rcases sanitize_head s c cs hx with rfl | h
  · decide
  · exact isXIDStartA_not_dig h

/-! ## Structure of the mangled name -/

theorem foldl_append_flatMap (l : List α) (f : α → List β) :
    ∀ n : List β, l.foldl (fun a x => a ++ f x) n = n ++ l.flatMap f := by
  induction l with
  | nil => intro n; simp
  | cons x t ih =>
    intro n
    simp only [List.foldl_cons, List.flatMap_cons, ih (n ++ f x), List.append_assoc]

theorem encSegs_append (A B : List (List Char)) :
    encSegs (A ++ B) = encSegs A ++ encSegs B := by
  simp [encSegs, List.flatMap_append]

theorem encSegs_single (x : List Char) : encSegs [x] = decChars x.length ++ x := by
  simp [encSegs]

theorem flatMap_pushStr (t : List PathElem) :
    t.flatMap (fun s => pushStr (eltStr s)) =
      encSegs (t.map fun s => sanitize (eltStr s)) := by
  induction t with
  | nil => simp [encSegs]
  | cons x xs ih =>
    simp only [List.flatMap_cons, List.map_cons, encSegs, List.flatMap_cons] at ih ⊢
    rw [ih]
    rfl

theorem mangle_structure (ss : List PathElem) (hash vers : Option (List Char)) :
    mangle ss hash vers = ['_', 'Z', 'N'] ++ encSegs (pushedSegs ss hash vers) ++ ['E'] := by
  simp only [mangle]
  rw [foldl_append_flatMap, foldl_append_flatMap]
  have heff : hash.getD [] ++ ss.flatMap disambChars = effHash ss hash := rfl
  rw [heff]
  unfold pushedSegs
  rw [flatMap_pushStr, encSegs_append, encSegs_append]
  by_cases hlen : effHash ss hash = []
  · rw [if_neg (by rw [hlen]; simp)]
    rw [show hashSegs (effHash ss hash) = [] by rw [hlen]; rfl]
    cases vers with
    | none => simp [encSegs, versSegs]
    | some v => simp [encSegs, versSegs, pushStr, List.append_assoc]
  · rw [if_pos (by simpa [gt_iff_lt, List.length_pos] using hlen)]
    rw [show hashSegs (effHash ss hash) = [sanitize (effHash ss hash)] from if_neg hlen]
    cases vers with
    | none => simp [encSegs, versSegs, pushStr, List.append_assoc]
    | some v => simp [encSegs, versSegs, pushStr, List.append_assoc]

theorem pushedSegs_headNotDig (ss : List PathElem) (hash vers : Option (List Char)) :
    ∀ s ∈ pushedSegs ss hash vers, headNotDig s := by
  intro s hs
  unfold pushedSegs at hs
  rcases List.mem_append.1 hs with hs1 | hs2
  · rcases List.mem_append.1 hs1 with hsa | hsb
    · rcases List.mem_map.1 hsa with ⟨a, -, rfl⟩
      exact headNotDig_sanitize _
    · unfold hashSegs at hsb
      by_cases hE : effHash ss hash = []
      · rw [if_pos hE] at hsb
        simp at hsb
      · rw [if_neg hE] at hsb
        rw [List.mem_singleton] at hsb
        subst hsb
        exact headNotDig_sanitize _
  · cases vers with
    | none => simp [versSegs] at hs2
    | some v =>
      simp only [versSegs, List.mem_singleton] at hs2
      subst hs2
      exact headNotDig_sanitize _

theorem pushedSegs_split {ss1 ss2 : List PathElem} {h1 h2 v1 v2 : Option (List Char)}
    (hlen : ss1.length = ss2.length)
    (hhash : effHash ss1 h1 = [] ↔ effHash ss2 h2 = [])
    (hvers : v1.isSome = v2.isSome)
    (heq : pushedSegs ss1 h1 v1 = pushedSegs ss2 h2 v2) :
    (ss1.map fun s => sanitize (eltStr s)) = (ss2.map fun s => sanitize (eltStr s)) ∧
      sanitize (effHash ss1 h1) = sanitize (effHash ss2 h2) ∧
      v1.map sanitize = v2.map sanitize := by
  unfold pushedSegs at heq
  rw [List.append_assoc, List.append_assoc] at heq
  have hA := List.append_inj heq (by simp [hlen])
  refine ⟨hA.1, ?_⟩
  have hBC := hA.2
  by_cases hE1 : effHash ss1 h1 = []
  · have hE2 : effHash ss2 h2 = [] := hhash.1 hE1
    rw [show hashSegs (effHash ss1 h1) = [] by rw [hE1]; rfl,
        show hashSegs (effHash ss2 h2) = [] by rw [hE2]; rfl] at hBC
    simp only [List.nil_append] at hBC
    refine ⟨by rw [hE1, hE2], ?_⟩
    cases v1 with
    | none =>
      cases v2 with
      | none => rfl
      | some b => simp at hvers
    | some a =>
      cases v2 with
      | none => simp at hvers
      | some b =>
        simp only [versSegs, List.cons.injEq] at hBC
        simp [hBC.1]
  · have hE2 : effHash ss2 h2 ≠ [] := fun h => hE1 (hhash.2 h)
    rw [show hashSegs (effHash ss1 h1) = [sanitize (effHash ss1 h1)] from if_neg hE1,
        show hashSegs (effHash ss2 h2) = [sanitize (effHash ss2 h2)] from if_neg hE2] at hBC
    have hB := List.append_inj hBC (by simp)
    refine ⟨by simpa using hB.1, ?_⟩
    have hC := hB.2
    cases v1 with
    | none =>
      cases v2 with
      | none => rfl
      | some b => simp at hvers
    | some a =>
      cases v2 with
      | none => simp at hvers
      | some b =>
        simp only [versSegs, List.cons.injEq] at hC
        simp [hC.1]

/-- Claim C2 (counterexample): the claim quantifies over every pair of inputs
that differ in any sanitized segment, hash, or version, but the path
`["a", "b"]` with no hash and the path `["a"]` with hash `"b"` differ in
their sanitized segment lists and in their hashes yet mangle to the same
string: the hash is pushed exactly like a path segment, so such a pair
collides. -/
theorem C2_counterexample :
    mangle [PathElem.nm ['a'], PathElem.nm ['b']] none none =
        mangle [PathElem.nm ['a']] (some ['b']) none ∧
      ([PathElem.nm ['a'], PathElem.nm ['b']].map fun s => sanitize (eltStr s)) ≠
        ([PathElem.nm ['a']].map fun s => sanitize (eltStr s)) ∧
      (none : Option (List Char)) ≠ some ['b'] := by
  refine ⟨by decide, by decide, by decide⟩

/-- Claim C2 (amended): the mangled string determines the emitted segment
sequence.  For two inputs with the same number of path segments, the same
presence of a nonempty effective hash, and the same presence of a version,
equal mangled strings force equal sanitized segment lists, equal sanitized
effective hashes, and equal sanitized versions — so inputs of equal shape
that differ in any sanitized segment, effective hash, or version mangle to
different strings. -/
theorem C2_amended_injectivity (ss1 ss2 : List PathElem) (h1 h2 v1 v2 : Option (List Char))
    (hlen : ss1.length = ss2.length)
    (hhash : effHash ss1 h1 = [] ↔ effHash ss2 h2 = [])
    (hvers : v1.isSome = v2.isSome)
    (heq : mangle ss1 h1 v1 = mangle ss2 h2 v2) :
    (ss1.map fun s => sanitize (eltStr s)) = (ss2.map fun s => sanitize (eltStr s)) ∧
      sanitize (effHash ss1 h1) = sanitize (effHash ss2 h2) ∧
      v1.map sanitize = v2.map sanitize := by
  rw [mangle_structure, mangle_structure] at heq
  have h1eq := List.append_cancel_right heq
  have h2eq := List.append_cancel_left h1eq
  exact pushedSegs_split hlen hhash hvers
    (encSegs_inj _ _ (pushedSegs_headNotDig ss1 h1 v1) (pushedSegs_headNotDig ss2 h2 v2) h2eq)

/-- Claim C2 (witness for the amended theorem). -/
theorem C2_amended_witness :
    ([PathElem.nm ['a']].map fun s => sanitize (eltStr s)) =
        ([PathElem.nm ['a']].map fun s => sanitize (eltStr s)) ∧
      sanitize (effHash [PathElem.nm ['a']] (some ['h'])) =
        sanitize (effHash [PathElem.nm ['a']] (some ['h'])) ∧
      (some ['v'] : Option (List Char)).map sanitize = (some ['v']).map sanitize :=
  C2_amended_injectivity [PathElem.nm ['a']] [PathElem.nm ['a']]
    (some ['h']) (some ['h']) (some ['v']) (some ['v'])
    rfl Iff.rfl rfl rfl

/-- Claim C4 (counterexample): for the path `[pretty "a" 0]` with hash
`"h"`, the two disambiguator characters `aa` are appended to the hash and
pushed with it as the single segment `3haa`; they do not form a
length-prefixed segment of their own distinct from the hash segment, which
would give `1h2aa` or `2aa1h`. -/
theorem C4_counterexample :
    mangle [PathElem.pretty ['a'] 0] (some ['h']) none = "_ZN1a3haaE".data ∧
      "_ZN1a3haaE".data ≠ "_ZN1a1h2aaE".data ∧
      "_ZN1a3haaE".data ≠ "_ZN1a2aa1hE".data := by
  refine ⟨by decide, by decide, by decide⟩

/-- Claim C4 (amended): every `pretty` path segment contributes exactly two
characters — `EXTRA_CHARS` at the high and at the low 32 bits of its 64-bit
disambiguator, each taken modulo the 62-character alphabet — but they are
appended to the hash string, and the combined hash-plus-disambiguator string
is emitted as one single sanitized, length-prefixed segment (shared with the
hash of step 4, present exactly when nonempty). -/
theorem C4_amended_disambiguator (ss : List PathElem) (hash vers : Option (List Char)) :
    mangle ss hash vers = ['_', 'Z', 'N'] ++ encSegs (pushedSegs ss hash vers) ++ ['E'] ∧
      pushedSegs ss hash vers =
        (ss.map fun s => sanitize (eltStr s)) ++ hashSegs (effHash ss hash) ++ versSegs vers ∧
      effHash ss hash = hash.getD [] ++ ss.flatMap disambChars ∧
      (∀ s e, disambChars (PathElem.pretty s e) =
        [exChar ((e >>> 32) % 2 ^ 32), exChar (e % 2 ^ 32)]) ∧
      (∀ i, exChar i ∈ extraChars62) ∧
      (ss.flatMap disambChars).length =
        2 * ss.countP (fun s => match s with
          | PathElem.pretty _ _ => true
          | _ => false) := by
  refine ⟨mangle_structure ss hash vers, rfl, rfl, fun s e => rfl, ?_, ?_⟩
  · intro i
    have h : i % 62 < 62 := Nat.mod_lt _ (by norm_num)
    unfold exChar
    revert h
    generalize i % 62 = m
    intro h
    interval_cases m <;> decide
  · induction ss with
    | nil => simp
    | cons x t ih =>
      cases x with
      | md s => simpa [disambChars, List.countP_cons] using ih
      | nm s => simpa [disambChars, List.countP_cons] using ih
      | pretty s e =>
        simp only [List.flatMap_cons, disambChars, List.countP_cons, List.length_append,
          List.length_cons, List.length_nil, ih, if_true]
        omega

/-- Claim C9: every character of a mangled name is one of `[A-Za-z0-9_.$]`
and the name begins with an underscore; and a sanitized segment whose first
character is not a legal identifier-start character begins with the
underscore the sanitizer put in front. -/
theorem C9_legality (ss : List PathElem) (hash vers : Option (List Char)) (s : List Char) :
    (∀ c ∈ mangle ss hash vers, legalChar c = true) ∧
      (mangle ss hash vers).head? = some '_' ∧
      (∀ c cs, sanitize s = c :: cs → isXIDStartA c = false → c = '_') := by
  refine ⟨?_, ?_, ?_⟩
  · intro c hc
    rw [mangle_structure] at hc
    simp only [List.mem_append, List.mem_cons, List.not_mem_nil, or_false] at hc
    rcases hc with ((rfl | rfl | rfl) | hc) | rfl
    · decide
    · decide
    · decide
    · unfold encSegs at hc
      rw [List.mem_flatMap] at hc
      rcases hc with ⟨seg, hseg, hc⟩
      rcases List.mem_append.1 hc with hdec | hmem
      · have hd := decChars_all_dig seg.length c hdec
        simp only [isDig, Bool.and_eq_true, decide_eq_true_eq] at hd
        simp only [legalChar, Bool.or_eq_true, Bool.and_eq_true, decide_eq_true_eq]
        omega
      · unfold pushedSegs at hseg
        rcases List.mem_append.1 hseg with h2 | h2
        · rcases List.mem_append.1 h2 with h3 | h3
          · rcases List.mem_map.1 h3 with ⟨a, -, rfl⟩
            exact sanitize_legal _ c hmem
          · unfold hashSegs at h3
            by_cases hE : effHash ss hash = []
            · rw [if_pos hE] at h3
              simp at h3
            · rw [if_neg hE] at h3
              rw [List.mem_singleton] at h3
              subst h3
              exact sanitize_legal _ c hmem
        · cases vers with
          | none => simp [versSegs] at h2
          | some v =>
            simp only [versSegs, List.mem_singleton] at h2
            subst h2
            exact sanitize_legal _ c hmem
    · decide
  · rw [mangle_structure]
    rfl
  · intro c cs hc hnx
    rcases sanitize_head s c cs hc with h | h
    · exact h
    · rw [h] at hnx
      exact absurd hnx (by simp)

/-- Claim C9 (witness). -/
theorem C9_witness :
    legalChar 'Z' = true ∧
      (mangle [PathElem.nm ['a']] none none).head? = some '_' ∧
      '_' = '_' :=
  ⟨(C9_legality [PathElem.nm ['a']] none none ['9']).1 'Z' (by decide),
   (C9_legality [PathElem.nm ['a']] none none ['9']).2.1,
   (C9_legality [PathElem.nm ['a']] none none ['9']).2.2 '_' ['9']
     (by decide) (by decide)⟩

/-! ## The crate hash (C1) -/

theorem sha256hex_length (s : String) : (sha256hex s).length = 64 := by
  simp [sha256hex, String.length, sha256hexL, wordHex]

theorem sha256hex_lower_hex (s : String) : ∀ c ∈ (sha256hex s).data, c ∈ hexDigits := by
  intro c hc
  have hw : ∀ (w : Nat), ∀ x ∈ wordHex w, x ∈ hexDigits := by
    intro w x hx
    simp only [wordHex, List.mem_cons, List.not_mem_nil, or_false] at hx
    rcases hx with rfl | rfl | rfl | rfl | rfl | rfl | rfl | rfl <;> exact hexChar_mem _
  simp only [sha256hex, sha256hexL, List.mem_append] at hc
  rcases hc with ((((((h | h) | h) | h) | h) | h) | h) | h <;> exact hw _ c h

/-- The embedded hasher agrees with the FIPS 180-4 test vector. -/
theorem sha256hex_abc :
    sha256hex "abc" = "ba7816bf8f01cfea414140de5dae2223b00361a396177a9cb410ff61f20015ad" := by
  decide

/-- Claim C1 (code evaluation): `truncated_hash_result` applies no
truncation, so the crate hash of the identity `demo # 0.0` is the full
64-character lowercase-hex SHA-256 digest — not a 16-character digest; the
length is 64 for every identity. -/
theorem C1_code_evaluation :
    crate_hash ⟨"demo", "demo", some "0.0"⟩ =
        "4eb7b0bae294f78165cee52b1d29073acd37226b97afdfc1b9050686023bd82b" ∧
      (crate_hash ⟨"demo", "demo", some "0.0"⟩).length = 64 ∧
      (crate_hash ⟨"demo", "demo", some "0.0"⟩).length ≠ 16 ∧
      ((crate_hash ⟨"demo", "demo", some "0.0"⟩).data.all
          fun c => hexDigits.contains c) = true ∧
      (∀ p : PkgId, (crate_hash p).length = 64) :=
  ⟨by decide, by decide, by decide, by decide, fun p => sha256hex_length _⟩

/-! ## Output filenames (C5) -/

/-- Claim C5: the library base name is
`name - first 8 crate-hash characters - version-or-default`; the rlib is
`lib<base>.rlib`, the dynamic library `<pre><base><suf>`, the static archive
`lib<base>.a`, and an executable keeps the exact user-specified output path;
the concrete identity of the spec gives `foo-abcdef01-0.0`. -/
theorem C5_output_filenames (lm : LinkMeta) (dllPre dllSuf pth nm v : String)
    (userOut : OutPath) :
    output_lib_filename lm =
        lm.pkgid.name ++ "-" ++ String.mk (lm.crate_hash.data.take 8) ++ "-" ++
          versionOrDefault lm.pkgid ∧
      versionOrDefault ⟨pth, nm, none⟩ = "0.0" ∧
      versionOrDefault ⟨pth, nm, some v⟩ = v ∧
      outFilePath OutputStyle.rlib dllPre dllSuf lm userOut =
        withFileName userOut ("lib" ++ output_lib_filename lm ++ ".rlib") ∧
      outFilePath OutputStyle.dylib dllPre dllSuf lm userOut =
        withFileName userOut (dllPre ++ output_lib_filename lm ++ dllSuf) ∧
      outFilePath OutputStyle.staticlib dllPre dllSuf lm userOut =
        withFileName userOut ("lib" ++ output_lib_filename lm ++ ".a") ∧
      outFilePath OutputStyle.exe dllPre dllSuf lm userOut = userOut ∧
      output_lib_filename ⟨⟨"foo", "foo", some "0.0"⟩, "abcdef0123456789"⟩ =
        "foo-abcdef01-0.0" :=
  ⟨rfl, rfl, rfl, rfl, rfl, rfl, rfl, by decide⟩

/-! ## Symbol-hash memoization (C6) -/

theorem get_symbol_hash_cached {τ : Type} [DecidableEq τ] (ccx : SymCtxt τ) (t : τ)
    (h : String) (hl : lookupHash ccx.type_hashcodes t = some h) :
    get_symbol_hash ccx t = (h, ccx, false) := by
  unfold get_symbol_hash
  rw [hl]

theorem get_symbol_hash_new {τ : Type} [DecidableEq τ] (ccx : SymCtxt τ) (t : τ)
    (hl : lookupHash ccx.type_hashcodes t = none) :
    get_symbol_hash ccx t =
      (symbol_hash ccx t,
       { ccx with type_hashcodes := (t, symbol_hash ccx t) :: ccx.type_hashcodes },
       true) := by
  unfold get_symbol_hash
  rw [hl]

theorem lookupHash_cons_self {τ : Type} [DecidableEq τ] (l : List (τ × String))
    (t : τ) (h : String) : lookupHash ((t, h) :: l) t = some h := by
  simp [lookupHash, List.find?_cons]

theorem lookupHash_cons_ne {τ : Type} [DecidableEq τ] (l : List (τ × String))
    (t u : τ) (h : String) (hne : ¬t = u) :
    lookupHash ((t, h) :: l) u = lookupHash l u := by
  simp [lookupHash, List.find?_cons, hne]

/-- Claim C6: a second `get_symbol_hash` for the same type returns the same
string and the same cache, does not rerun the hash computation (the `Bool`
instrument is `false`), and an entry once present in the cache survives any
`get_symbol_hash` call unchanged. -/
theorem C6_memoization {τ : Type} [DecidableEq τ] (ccx : SymCtxt τ) (t : τ) :
    (get_symbol_hash (get_symbol_hash ccx t).2.1 t).1 = (get_symbol_hash ccx t).1 ∧
      (get_symbol_hash (get_symbol_hash ccx t).2.1 t).2.1 = (get_symbol_hash ccx t).2.1 ∧
      (get_symbol_hash (get_symbol_hash ccx t).2.1 t).2.2 = false ∧
      (∀ u h0, lookupHash ccx.type_hashcodes u = some h0 →
        lookupHash (get_symbol_hash ccx t).2.1.type_hashcodes u = some h0) := by
  cases hl : lookupHash ccx.type_hashcodes t with
  | some h =>
    rw [get_symbol_hash_cached ccx t h hl]
    rw [get_symbol_hash_cached ccx t h hl]
    exact ⟨rfl, rfl, rfl, fun u h0 hu => hu⟩
  | none =>
    rw [get_symbol_hash_new ccx t hl]
    have hself : lookupHash ((t, symbol_hash ccx t) :: ccx.type_hashcodes) t =
        some (symbol_hash ccx t) := lookupHash_cons_self _ _ _
    rw [get_symbol_hash_cached _ t _ hself]
    refine ⟨rfl, rfl, rfl, ?_⟩
    intro u h0 hu
    have hne : ¬t = u := by
      intro he
      rw [he] at hl
      rw [hl] at hu
      exact Option.noConfusion hu
    rw [lookupHash_cons_ne _ _ _ _ hne]
    exact hu

/-- Claim C6 (witness). -/
theorem C6_witness :
    (get_symbol_hash
        (get_symbol_hash (⟨⟨⟨"p", "p", none⟩, "ch"⟩, fun _ => "T", [(5, "x")]⟩ : SymCtxt Nat)
          5).2.1 5).2.2 = false ∧
      lookupHash
        (get_symbol_hash (⟨⟨⟨"p", "p", none⟩, "ch"⟩, fun _ => "T", [(5, "x")]⟩ : SymCtxt Nat)
          5).2.1.type_hashcodes 5 = some "x" :=
  ⟨(C6_memoization (⟨⟨⟨"p", "p", none⟩, "ch"⟩, fun _ => "T", [(5, "x")]⟩ : SymCtxt Nat) 5).2.2.1,
   (C6_memoization (⟨⟨⟨"p", "p", none⟩, "ch"⟩, fun _ => "T", [(5, "x")]⟩ : SymCtxt Nat) 5).2.2.2
     5 "x" (by decide)⟩

/-! ## Dependency-resolution exclusivity (C3) -/

theorem dynFormArg_L (x : String) : dynFormArg ("-L" ++ x) = true := by
  unfold dynFormArg
  rw [String.data_append]
  have h : ("-L".data).isPrefixOf ("-L".data ++ x.data) = true :=
    List.isPrefixOf_iff_prefix.2 (List.prefix_append _ _)
  rw [h]
  rfl

theorem dynFormArg_l (x : String) : dynFormArg ("-l" ++ x) = true := by
  unfold dynFormArg
  rw [String.data_append]
  have h : ("-l".data).isPrefixOf ("-l".data ++ x.data) = true :=
    List.isPrefixOf_iff_prefix.2 (List.prefix_append _ _)
  rw [h]
  simp

theorem dynLoop_form (osW : Bool) :
    ∀ (l : List UsedCrate) (a : String), a ∈ (dynLoop osW l).1 → dynFormArg a = true := by
  intro l
  induction l with
  | nil => intro a ha; simp [dynLoop] at ha
  | cons c rest ih =>
    intro a ha
    cases hd : c.dylib with
    | none => simp [dynLoop, hd] at ha
    | some p =>
      simp only [dynLoop, hd] at ha
      rcases List.mem_append.1 ha with h1 | h1
      · unfold dynCrateArgs at h1
        rcases List.mem_append.1 h1 with h2 | h2
        · by_cases hdir : dirNameStr p ≠ ""
          · rw [if_pos hdir] at h2
            rw [List.mem_singleton] at h2
            subst h2
            exact dynFormArg_L _
          · rw [if_neg hdir] at h2
            simp at h2
        · rw [List.mem_singleton] at h2
          subst h2
          exact dynFormArg_l _
      · exact ih a h1

/-- Claim C3: `add_upstream_rust_crates` resolves the whole crate list
through one strategy.  When the all-static condition (executable output,
dynamic linking not preferred, every crate with a static archive) holds the
appended arguments are exactly the static resolution of every crate; when it
fails they are exactly the all-dynamic fallback's output, every element of
which is a `-L` or `-l` argument; in every case the appended argument list
equals one strategy's output for the entire list — never a per-crate mix. -/
theorem C3_no_mixed_resolution (cfg : LinkCfg) :
    (allStaticCond cfg = true →
        add_upstream_rust_crates cfg = (cfg.crates.flatMap (staticCrateArgs cfg), [])) ∧
      (allStaticCond cfg = false →
        add_upstream_rust_crates cfg = dynLoop cfg.osWin32 cfg.crates) ∧
      (∀ a ∈ (dynLoop cfg.osWin32 cfg.crates).1, dynFormArg a = true) ∧
      ((add_upstream_rust_crates cfg).1 = cfg.crates.flatMap (staticCrateArgs cfg) ∨
        (add_upstream_rust_crates cfg).1 = (dynLoop cfg.osWin32 cfg.crates).1) := by
  refine ⟨?_, ?_, fun a ha => dynLoop_form cfg.osWin32 cfg.crates a ha, ?_⟩
  · intro h
    unfold add_upstream_rust_crates
    rw [if_pos h]
  · intro h
    unfold add_upstream_rust_crates
    rw [if_neg (by simp [h])]
  · by_cases h : allStaticCond cfg = true
    · left
      unfold add_upstream_rust_crates
      rw [if_pos h]
    · right
      unfold add_upstream_rust_crates
      rw [if_neg h]

/-- Claim C3 (witness). -/
theorem C3_witness :
    add_upstream_rust_crates ⟨false, false, false, false,
        [⟨1, "A", some "/p/libA.rlib", none⟩], fun _ => [], "/t"⟩ =
      (["/p/libA.rlib"], []) ∧
      dynFormArg "-L/d" = true :=
  ⟨by
      rw [(C3_no_mixed_resolution ⟨false, false, false, false,
        [⟨1, "A", some "/p/libA.rlib", none⟩], fun _ => [], "/t"⟩).1 (by decide)]
      decide,
   (C3_no_mixed_resolution ⟨true, false, false, false,
        [⟨1, "A", none, some "/d/libA.so"⟩], fun _ => [], "/t"⟩).2.2.1 "-L/d" (by decide)⟩

/-! ## Missing dynamic libraries and the error gate (C7) -/

theorem dynLoop_first_missing (osW : Bool) :
    ∀ (l : List UsedCrate) (c : UsedCrate),
      l.find? (fun x => x.dylib.isNone) = some c →
      (dynLoop osW l).2 = [noDylibErr c] := by
  intro l
  induction l with
  | nil => intro c h; simp at h
  | cons x rest ih =>
    intro c h
    rw [List.find?_cons] at h
    cases hd : x.dylib with
    | none =>
      rw [hd] at h
      simp only [Option.isNone_none] at h
      cases h
      simp [dynLoop, hd]
    | some p =>
      rw [hd] at h
      simp only [Option.isNone_some] at h
      simp [dynLoop, hd, ih c h]

/-- Claim C7 (counterexample): with two upstream crates `A` and `B` both
lacking a dynamic library, only the first is reported — the loop returns
after the first error, so `B` is never reported, refuting "every transitive
upstream crate lacking a dynamic-library path is reported". -/
theorem C7_counterexample :
    (add_upstream_rust_crates ⟨false, true, false, false,
        [⟨1, "A", none, none⟩, ⟨2, "B", none, none⟩], fun _ => [], "/t"⟩).2 =
      ["could not find dynamic library for: `A`"] ∧
      "could not find dynamic library for: `B`" ∉
        (add_upstream_rust_crates ⟨false, true, false, false,
          [⟨1, "A", none, none⟩, ⟨2, "B", none, none⟩], fun _ => [], "/t"⟩).2 :=
  ⟨by decide, by decide⟩

/-- Claim C7 (amended): on the fallback path, the first crate lacking a
dynamic-library path is reported as a session error (resolution then stops,
so later crates are not reported), and the linker subprocess is not spawned:
`link_natively` checks the accumulated errors before invoking it. -/
theorem C7_amended_first_error (cfg : LinkCfg) (c : UsedCrate) (pre post : List String)
    (hfb : allStaticCond cfg = false)
    (hfind : cfg.crates.find? (fun x => x.dylib.isNone) = some c) :
    (add_upstream_rust_crates cfg).2 = [noDylibErr c] ∧
      (∀ args, link_natively cfg pre post ≠ LinkOutcome.invoked args) ∧
      (∀ args, link_natively cfg pre post = LinkOutcome.invoked args →
        (add_upstream_rust_crates cfg).2 = []) := by
  have herr : (add_upstream_rust_crates cfg).2 = [noDylibErr c] := by
    unfold add_upstream_rust_crates
    rw [if_neg (by simp [hfb])]
    exact dynLoop_first_missing _ _ _ hfind
  refine ⟨herr, ?_, ?_⟩
  · intro args
    simp only [link_natively]
    rw [herr]
    simp
  · intro args hinv
    simp only [link_natively] at hinv
    rw [herr] at hinv
    simp at hinv

/-- Claim C7 (witness for the amended theorem). -/
theorem C7_amended_witness :
    (add_upstream_rust_crates ⟨false, true, false, false,
        [⟨1, "A", none, none⟩, ⟨2, "B", none, none⟩], fun _ => [], "/t"⟩).2 =
      [noDylibErr ⟨1, "A", none, none⟩] ∧
      link_natively ⟨false, true, false, false,
        [⟨1, "A", none, none⟩, ⟨2, "B", none, none⟩], fun _ => [], "/t"⟩ [] [] ≠
        LinkOutcome.invoked [] :=
  ⟨(C7_amended_first_error _ ⟨1, "A", none, none⟩ [] [] (by decide) (by decide)).1,
   (C7_amended_first_error _ ⟨1, "A", none, none⟩ [] [] (by decide) (by decide)).2.1 []⟩

/-! ## LTO object stripping (C8) -/

/-- Claim C8: on the all-static executable path under LTO, each crate's
archive is re-created at its scratch-directory copy with the member
`<name>.o` removed, and it contributes that copy's path as an argument
exactly when some `.o` member remains — an archive left with no object
member contributes nothing. -/
theorem C8_lto_stripping (cfg : LinkCfg)
    (hexe : cfg.dylibOut = false) (hpd : cfg.preferDyn = false)
    (hall : (cfg.crates.all fun c => c.rlib.isSome) = true) (hlto : cfg.lto = true) :
    (add_upstream_rust_crates cfg).1 = cfg.crates.flatMap (staticCrateArgs cfg) ∧
      ∀ c p, c ∈ cfg.crates → c.rlib = some p →
        staticCrateArgs cfg c =
          (if ((cfg.archiveMembers p).erase (c.name ++ ".o")).any
              (fun m => ".o".data.isSuffixOf m.data)
           then [cfg.tmpdir ++ "/" ++ fileNameStr p] else []) := by
  constructor
  · have hcond : allStaticCond cfg = true := by
      simp [allStaticCond, hexe, hpd, hall]
    unfold add_upstream_rust_crates
    rw [if_pos hcond]
  · intro c p hc hp
    simp [staticCrateArgs, hp, hlto]

/-- Claim C8 (witness): the spec's end-to-end scenario — a single upstream
crate `B` whose archive holds exactly the one object member `B.o`; after
stripping, no `.o` member remains, so the crate contributes no argument. -/
theorem C8_witness :
    (add_upstream_rust_crates ⟨false, false, true, false,
        [⟨1, "B", some "/p/libB.rlib", none⟩],
        (fun p => if p = "/p/libB.rlib" then ["B.o"] else []), "/t"⟩).1 = [] := by
  rw [(C8_lto_stripping ⟨false, false, true, false,
        [⟨1, "B", some "/p/libB.rlib", none⟩],
        (fun p => if p = "/p/libB.rlib" then ["B.o"] else []), "/t"⟩
      rfl rfl (by decide) rfl).1]
  decide

/-! ## Writability (C10) -/

theorem not_writeable_stat (fs : String → Option FileStat) (q : String)
    (h : is_writeable fs q = false) :
    ∃ st, fs q = some st ∧ (st.perm &&& userWrite == userWrite) = false := by
  unfold is_writeable at h
  cases hq : fs q with
  | none => rw [hq] at h; simp at h
  | some st => rw [hq] at h; exact ⟨st, rfl, h⟩

/-- Claim C10: a path whose `stat` fails (in particular a missing path) is
writeable; the pre-link check raises a fatal error only for a file that
exists and lacks the user-write bit; and an unwritable output path is
reported first. -/
theorem C10_writeable (fs : String → Option FileStat) (p objF outF : String) :
    (fs p = none → is_writeable fs p = true) ∧
      (∀ m, writeCheck fs objF outF = some m →
        (∃ st, fs outF = some st ∧ (st.perm &&& userWrite == userWrite) = false) ∨
        (∃ st, fs objF = some st ∧ (st.perm &&& userWrite == userWrite) = false)) ∧
      (is_writeable fs outF = false →
        writeCheck fs objF outF =
          some ("Output file " ++ outF ++ " is not writeable -- check its permissions.")) := by
  refine ⟨?_, ?_, ?_⟩
  · intro h
    unfold is_writeable
    rw [h]
  · intro m hm
    simp only [writeCheck] at hm
    split_ifs at hm with h1 h2
    · exact Or.inl (not_writeable_stat fs outF (by simpa using h1))
    · exact Or.inr (not_writeable_stat fs objF (by simpa using h2))
  · intro h
    simp [writeCheck, h]

/-- Claim C10 (witness): a missing path is writeable, and an existing
output file without the user-write bit is reported with the output-file
message. -/
theorem C10_witness :
    is_writeable (fun q => if q = "out" then some ⟨0⟩ else none) "nofile" = true ∧
      writeCheck (fun q => if q = "out" then some ⟨0⟩ else none) "obj" "out" =
        some ("Output file " ++ "out" ++ " is not writeable -- check its permissions.") :=
  ⟨(C10_writeable (fun q => if q = "out" then some ⟨0⟩ else none) "nofile" "obj" "out").1
      (by decide),
   (C10_writeable (fun q => if q = "out" then some ⟨0⟩ else none) "nofile" "obj" "out").2.2
      (by decide)⟩

/-! ## Additional sanity check against the spec's sanitizer example -/

theorem sanitize_spec_example : String.mk (sanitize "Foo<Bar>".data) = "Foo$LT$Bar$GT$" := by
  decide

end LinkBack
